import Mathlib

set_option maxHeartbeats 1000000

/-!
Shallow embedding of `c_d_m_s_functions.py`, a script that scans LaTeX
documents for provider-prefixed citation keys, reads the entry keys already
present in four local BibTeX files, and fetches and merges missing records.

Strings are modelled as `List Char`; Python `set`s of strings are modelled as
duplicate-free lists built with `setAdd`; fallible code (an uncaught Python
exception) is modelled with `Option`.  Each regular expression of the source
is embedded as a specialised matcher that follows Python `re` semantics
(leftmost match position, ordered alternation, greedy repetition with
backtracking) for its fixed pattern.
-/

/-- Python `set.add` on a list-modelled set: append the element unless it is
already present.  Only membership matters; insertion order makes the model
deterministic where Python iterates a hash set. -/
def setAdd (s : List (List Char)) (k : List Char) : List (List Char) :=
  if k ∈ s then s else s ++ [k]

/-- Characters removed by Python `str.strip()`. -/
def isPySpace (c : Char) : Bool :=
  c == ' ' || c == '\t' || c == '\n' || c == '\r' || c == '\x0b' || c == '\x0c'

/-- Python `str.strip()`: drop whitespace from both ends. -/
def pyStrip (s : List Char) : List Char :=
  ((s.dropWhile isPySpace).reverse.dropWhile isPySpace).reverse

/-- Python `str.split(',')`: split at every comma, keeping empty pieces. -/
def splitOnComma : List Char → List (List Char)
  | [] => [[]]
  | c :: rest =>
    if c = ',' then [] :: splitOnComma rest
    else
      match splitOnComma rest with
      | [] => [[c]]
      | t :: ts => (c :: t) :: ts

/-! The citation-command regex of `return_tex_citation`:
`(?:cite|citep|citet|fullciteown|autocite|textcite)` followed by a brace
group `([^}]+)` and a closing brace. -/

/-- The six recognized citation-command names, in the alternation order of the
pattern compiled by `return_tex_citation`. -/
def texNames : List (List Char) :=
  [['c','i','t','e'], ['c','i','t','e','p'], ['c','i','t','e','t'],
   ['f','u','l','l','c','i','t','e','o','w','n'],
   ['a','u','t','o','c','i','t','e'], ['t','e','x','t','c','i','t','e']]

/-- Match the tail of the citation pattern: an opening brace, a nonempty
greedy run of non-brace characters (the group), and a closing brace.
Returns the group and the text after the match. -/
def matchAfterName (s : List Char) : Option (List Char × List Char) :=
  match s with
  | [] => none
  | c :: rest =>
    if c = '{' then
      match rest.takeWhile (fun d => d != '}'), rest.dropWhile (fun d => d != '}') with
      | g :: gs, _ :: after => some (g :: gs, after)
      | _, _ => none
    else none

/-- Try the citation pattern anchored at the start of `s`: the alternation
tries the six command names in order, as Python `re` does. -/
def tryTexAt (s : List Char) : Option (List Char × List Char) :=
  texNames.findSome? fun w =>
    if w.isPrefixOf s then matchAfterName (s.drop w.length) else none

/-- One step per character: `re.finditer` scanning for the citation pattern,
with fuel for termination.  On a match, scanning resumes after it. -/
def texGroupsAux : Nat → List Char → List (List Char)
  | 0, _ => []
  | _ + 1, [] => []
  | fuel + 1, c :: rest =>
    match tryTexAt (c :: rest) with
    | some (g, after) => g :: texGroupsAux fuel after
    | none => texGroupsAux fuel rest

/-- All groups produced by `re.finditer(return_tex_citation(), line)`. -/
def texCitationGroups (line : List Char) : List (List Char) :=
  texGroupsAux line.length line

/-- Literal provider tags tested by `startswith` in `read_latex`. -/
def cogprintsTag : List Char := "Cogprints:".toList

/-- Tag of the DBLP provider. -/
def dblpTag : List Char := "DBLP:".toList

/-- Tag of the Microsoft provider. -/
def microsoftTag : List Char := "Microsoft:".toList

/-- Tag of the Springer provider. -/
def springerTag : List Char := "Springer:".toList

/-- The five global key sets populated by `read_latex`. -/
structure CitedSets where
  cogprints : List (List Char)
  dblp : List (List Char)
  microsoft : List (List Char)
  springer : List (List Char)
  unused : List (List Char)
deriving DecidableEq

/-- All five cited-key sets start empty. -/
def emptyCited : CitedSets := ⟨[], [], [], [], []⟩

/-- The classification chain of `read_latex`: strip the raw token, test the
four literal tags in order, and add the stripped token to the first matching
bucket, or to `unused` when none matches. -/
def addCitationKey (st : CitedSets) (rawKey : List Char) : CitedSets :=
  let k := pyStrip rawKey
  if cogprintsTag.isPrefixOf k then { st with cogprints := setAdd st.cogprints k }
  else if dblpTag.isPrefixOf k then { st with dblp := setAdd st.dblp k }
  else if microsoftTag.isPrefixOf k then { st with microsoft := setAdd st.microsoft k }
  else if springerTag.isPrefixOf k then { st with springer := setAdd st.springer k }
  else { st with unused := setAdd st.unused k }

/-- Processing of one document line in `read_latex`: for every match group,
split on commas and classify every token. -/
def processTexLine (st : CitedSets) (line : List Char) : CitedSets :=
  (texCitationGroups line).foldl
    (fun st g => (splitOnComma g).foldl addCitationKey st) st

/-- `read_latex` over the lines of all scanned documents. -/
def read_latex (docLines : List (List Char)) : CitedSets :=
  docLines.foldl processTexLine emptyCited

/-! The per-line BibTeX-header regex of `return_bibtex`: `@.*\x7b([^,]*),`
searched with `re.finditer` over each line of an existing file. -/

/-- Match the part of the `return_bibtex` pattern after a `@`: a greedy
non-newline gap, an opening brace, a comma-free group, and a comma.  Greedy
backtracking picks the last viable opening brace; the group runs to the first
comma after it.  Returns the group and the text after that comma. -/
def braceCommaSplit : List Char → Option (List Char × List Char)
  | [] => none
  | c :: rest =>
    if c = '\n' then none
    else if c = '{' then
      match braceCommaSplit rest with
      | some r => some r
      | none =>
        match rest.dropWhile (fun d => d != ',') with
        | _ :: after => some (rest.takeWhile (fun d => d != ','), after)
        | [] => none
    else braceCommaSplit rest

/-- `re.finditer(return_bibtex(), line)` scanning, with fuel. -/
def lineBibKeysAux : Nat → List Char → List (List Char)
  | 0, _ => []
  | _ + 1, [] => []
  | fuel + 1, c :: rest =>
    if c = '@' then
      match braceCommaSplit rest with
      | some (g, after) => g :: lineBibKeysAux fuel after
      | none => lineBibKeysAux fuel rest
    else lineBibKeysAux fuel rest

/-- All keys the `return_bibtex` pattern extracts from one line. -/
def lineBibKeys (line : List Char) : List (List Char) :=
  lineBibKeysAux line.length line

/-- `read_existing_file`: a missing file contributes nothing; an existing
file contributes every key matched on any of its lines to `known`. -/
def read_existing_file (known : List (List Char)) :
    Option (List (List Char)) → List (List Char)
  | none => known
  | some lines => lines.foldl (fun kn line => (lineBibKeys line).foldl setAdd kn) known

/-- The key set a single file contributes, starting from an empty set. -/
def fileKeys (f : Option (List (List Char))) : List (List Char) :=
  read_existing_file [] f

/-- `read_all_existing_files`: the four local files pooled into the single
global known-key set, in source order. -/
def read_all_existing_files (c d m s : Option (List (List Char))) : List (List Char) :=
  read_existing_file (read_existing_file (read_existing_file (read_existing_file [] c) d) m) s

/-! The record-splitting regex of `compile_bibtex_items`:
`(@[a-zA-Z]+\x7b[^@]*\n\x7d)` with `re.DOTALL`, used by `re.finditer` on a
fetched payload. -/

/-- Split a `@`-free region at the last occurrence of a newline followed by a
closing brace (the greedy `[^@]*` backtracks to the last viable position).
Returns the prefix ending in that newline-brace pair, and the rest. -/
def splitLastNlBrace : List Char → Option (List Char × List Char)
  | [] => none
  | [_] => none
  | c₁ :: c₂ :: rest =>
    if c₁ = '\n' ∧ c₂ = '}' then
      match splitLastNlBrace rest with
      | some (p, r) => some ('\n' :: '}' :: p, r)
      | none => some (['\n', '}'], rest)
    else
      match splitLastNlBrace (c₂ :: rest) with
      | some (p, r) => some (c₁ :: p, r)
      | none => none

/-- Try the record pattern just after a `@`: a nonempty greedy run of ASCII
letters, an opening brace, then non-`@` characters up to the last viable
newline-brace pair.  Returns the full matched record and the continuation. -/
def tryItemAt (rest : List Char) : Option (List Char × List Char) :=
  match rest.takeWhile Char.isAlpha, rest.dropWhile Char.isAlpha with
  | l :: ls, b :: rest3 =>
    if b = '{' then
      match splitLastNlBrace (rest3.takeWhile (fun d => d != '@')) with
      | some (body, tail) =>
        some ('@' :: ((l :: ls) ++ '{' :: body), tail ++ rest3.dropWhile (fun d => d != '@'))
      | none => none
    else none
  | _, _ => none

/-- `re.finditer(compile_bibtex_items(), payload)` scanning, with fuel. -/
def bibtexItemsAux : Nat → List Char → List (List Char)
  | 0, _ => []
  | _ + 1, [] => []
  | fuel + 1, c :: rest =>
    if c = '@' then
      match tryItemAt rest with
      | some (item, cont) => item :: bibtexItemsAux fuel cont
      | none => bibtexItemsAux fuel rest
    else bibtexItemsAux fuel rest

/-- All records the `compile_bibtex_items` pattern splits a payload into. -/
def bibtex_items (payload : List Char) : List (List Char) :=
  bibtexItemsAux payload.length payload

/-- `re.match(compile_bibtex_item_key(), item)`: anchored
`@[a-zA-Z]+\x7b([^,]+),\s*`; `none` models a failed match, on which the
source's `.group(1)` raises. -/
def bibtex_item_key (item : List Char) : Option (List Char) :=
  match item with
  | [] => none
  | c :: rest =>
    if c = '@' then
      match rest.takeWhile Char.isAlpha, rest.dropWhile Char.isAlpha with
      | _ :: _, b :: rest3 =>
        if b = '{' then
          match rest3.takeWhile (fun d => d != ','), rest3.dropWhile (fun d => d != ',') with
          | k :: ks, _ :: _ => some (k :: ks)
          | _, _ => none
        else none
      | _, _ => none
    else none

/-- State of one provider's merge loop: the run-local fetched set, the text
appended to the provider file this run, and the appended records and skipped
keys as observation lists. -/
structure MergeState where
  fetched : List (List Char)
  out : List Char
  appends : List (List Char × List Char)
  skipped : List (List Char)
deriving DecidableEq

/-- The merge loop starts with an empty fetched set and nothing written. -/
def mergeInit : MergeState := ⟨[], [], [], []⟩

/-- The body of the merge loop for one record: extract the key (a failed
match raises, modelled by `none`); append the record and a blank separator
line and record the key as fetched when the key is new, otherwise log the
skip. -/
def mergeItem (known : List (List Char)) (st : MergeState) (item : List Char) :
    Option MergeState :=
  match bibtex_item_key item with
  | none => none
  | some key =>
    if key ∈ st.fetched ∨ key ∈ known then
      some { st with skipped := st.skipped ++ [key] }
    else
      some { fetched := st.fetched ++ [key],
             out := st.out ++ item ++ ['\n', '\n'],
             appends := st.appends ++ [(key, item)],
             skipped := st.skipped }

/-- Merge every record of one fetched payload, in order. -/
def mergePayload (known : List (List Char)) (st : MergeState) (payload : List Char) :
    Option MergeState :=
  (bibtex_items payload).foldlM (mergeItem known) st

/-- Merge a sequence of fetched payloads of one provider run. -/
def mergeRun (known : List (List Char)) (payloads : List (List Char)) :
    Option MergeState :=
  payloads.foldlM (mergePayload known) mergeInit

/-- The three console reports of `check_missing_keys`. -/
inductive FetchReport where
  | noFile : FetchReport
  | upToDate : FetchReport
  | fetching : FetchReport
deriving DecidableEq

/-- `check_missing_keys`: branch on file existence and on emptiness of the
provider's cited-key set, and return that set unchanged. -/
def check_missing_keys (fileExists : Bool) (nameKeys : List (List Char)) :
    FetchReport × List (List Char) :=
  if fileExists = false ∧ nameKeys = [] then (FetchReport.noFile, nameKeys)
  else if nameKeys = [] then (FetchReport.upToDate, nameKeys)
  else (FetchReport.fetching, nameKeys)

/-- The Cogprints URL: the template with the key minus its first 10 chars. -/
def cogprints_url (key : List Char) : List Char :=
  "https://web-archive.southampton.ac.uk/cogprints.org/".toList ++ key.drop 10
    ++ ".bib.html".toList

/-- The DBLP URL: the template with the key minus its first 5 chars. -/
def dblp_url (key : List Char) : List Char :=
  "https://dblp.org/rec/".toList ++ key.drop 5 ++ ".bib".toList

/-- The Microsoft URL: the template with the key minus its first 10 chars. -/
def microsoft_url (key : List Char) : List Char :=
  "https://www.microsoft.com/en-us/research/publication/".toList ++ key.drop 10
    ++ "/bibtex/".toList

/-- The Springer URL: the template with the key minus its first 9 chars. -/
def springer_url (key : List Char) : List Char :=
  "https://citation-needed.springer.com/v2/references/10.1007/".toList ++ key.drop 9

/-- Observable outcome of one provider's `open_*_file` function: the console
report, the keys the loop iterates (one HTTP GET each), the URLs requested,
and the final merge state (or `none` when a record key fails to parse). -/
structure ProviderResult where
  report : FetchReport
  attempted : List (List Char)
  urls : List (List Char)
  merge : Option MergeState
deriving DecidableEq

/-- The shared shape of the four `open_*_file` functions: iterate over the
keys returned by `check_missing_keys`, fetch each key's URL, and merge each
payload with the run-local fetched set threaded through. -/
def providerRun (fileExists : Bool) (known cited : List (List Char))
    (mkUrl : List Char → List Char) (fetch : List Char → List Char) : ProviderResult :=
  let r := check_missing_keys fileExists cited
  { report := r.1,
    attempted := r.2,
    urls := r.2.map mkUrl,
    merge := r.2.foldlM (fun st k => mergePayload known st (fetch (mkUrl k))) mergeInit }

/-- `open_cogprints_file`, with file system and network abstracted. -/
def open_cogprints_file (fe : Bool) (known cited : List (List Char))
    (fetch : List Char → List Char) : ProviderResult :=
  providerRun fe known cited cogprints_url fetch

/-- `open_dblp_file`, with file system and network abstracted. -/
def open_dblp_file (fe : Bool) (known cited : List (List Char))
    (fetch : List Char → List Char) : ProviderResult :=
  providerRun fe known cited dblp_url fetch

/-- `open_microsoft_file`, with file system and network abstracted. -/
def open_microsoft_file (fe : Bool) (known cited : List (List Char))
    (fetch : List Char → List Char) : ProviderResult :=
  providerRun fe known cited microsoft_url fetch

/-- `open_springer_file`, with file system and network abstracted. -/
def open_springer_file (fe : Bool) (known cited : List (List Char))
    (fetch : List Char → List Char) : ProviderResult :=
  providerRun fe known cited springer_url fetch

/-- Does a candidate record body end in a newline followed by a closing
brace, with no `@` anywhere before them?  Decidable check on the text that
follows the opening brace of a record header. -/
def cleanTail (s : List Char) : Bool :=
  match s.reverse with
  | b :: n :: body => b == '}' && n == '\n' && decide ('@' ∉ body)
  | _ => false

/-- Can the text be decomposed exactly as the record-splitting pattern
requires: a `@`, a nonempty run of ASCII letters, an opening brace, and a
`@`-free remainder ending in a newline and a closing brace?  Every record
the pattern produces satisfies this; a record-shaped text with a `@`
anywhere between its header brace and its closing brace, or whose closing
brace is not immediately preceded by a newline, fails it. -/
def hasCleanShape : List Char → Bool
  | [] => false
  | c :: rest =>
    c == '@' &&
      (match rest.takeWhile Char.isAlpha, rest.dropWhile Char.isAlpha with
       | _ :: _, b :: rest3 => b == '{' && cleanTail rest3
       | _, _ => false)

/-- The one-line file content of a record header for key `K`. -/
def sampleKnownLine : List Char := ['@', 'a', '{', 'K', ',']

/-- A fetched payload holding a record for key `A` twice and one for the
already-known key `K`. -/
def samplePayloadTwiceA : List Char :=
  ['@', 'a', '{', 'A', ',', '\n', '}', '@', 'a', '{', 'A', ',', '\n', '}',
   '@', 'b', '{', 'K', ',', '\n', '}']

/-- A fetched payload holding one record for key `A`. -/
def samplePayloadA : List Char := ['@', 'a', '{', 'A', ',', '\n', '}']

/-- A fetched payload holding one record for the key `K`. -/
def samplePayloadK : List Char := ['@', 'm', 'i', 's', 'c', '{', 'K', ',', '\n', '}']

/-- A record-shaped text whose header has no comma after the key. -/
def sampleNoCommaItem : List Char := ['@', 'm', 'i', 's', 'c', '{', 'k', 'e', 'y', '\n', '}']

/-- A record-shaped text with a `@` inside its body. -/
def sampleInnerAtItem : List Char :=
  ['@', 'm', 'i', 's', 'c', '{', 'a', '@', 'b', ',', '\n', '}']

/-- A realistic record with an email-like `@` inside a braced field value
and another braced field after it. -/
def sampleEmailItem : List Char :=
  ['@', 'm', 'i', 's', 'c', '{', 'k', 'e', 'y', ',', '\n', ' ',
   'n', 'o', 't', 'e', ' ', '=', ' ', '{', 'a', '@', 'b', '}', ',', '\n', ' ',
   'u', 'r', 'l', ' ', '=', ' ', '{', 'x', '}', '\n', '}']

/-- A document line citing one DBLP key and one unclassified key. -/
def sampleCiteLine : List Char :=
  '\\' :: (['c', 'i', 't', 'e'] ++ '{' :: ("DBLP:key1, Other:key2".toList ++ ['}']))

/-! Helper lemmas. -/

/-- Membership in a `setAdd` result. -/
theorem setAdd_mem (s : List (List Char)) (k a : List Char) :
    a ∈ setAdd s k ↔ a ∈ s ∨ a = k := by
  unfold setAdd
  split
  · next h =>
    constructor
    · exact Or.inl
    · rintro (h1 | rfl)
      · exact h1
      · exact h
  · simp [List.mem_append]

/-- Membership after folding `setAdd` over a list of keys. -/
theorem foldl_setAdd_mem (l : List (List Char)) (s : List (List Char)) (a : List Char) :
    a ∈ l.foldl setAdd s ↔ a ∈ s ∨ a ∈ l := by
  induction l generalizing s with
  | nil => simp
  | cons k t ih =>
    simp only [List.foldl_cons, ih, setAdd_mem, List.mem_cons]
    tauto

/-- Membership after the line fold of `read_existing_file`. -/
theorem foldl_lines_mem (lines : List (List Char)) (kn : List (List Char)) (a : List Char) :
    a ∈ lines.foldl (fun kn line => (lineBibKeys line).foldl setAdd kn) kn ↔
      a ∈ kn ∨ ∃ line ∈ lines, a ∈ lineBibKeys line := by
  induction lines generalizing kn with
  | nil => simp
  | cons l t ih =>
    simp only [List.foldl_cons, ih, foldl_setAdd_mem, List.mem_cons]
    constructor
    · rintro ((h | h) | ⟨line, hl, hk⟩)
      · exact Or.inl h
      · exact Or.inr ⟨l, Or.inl rfl, h⟩
      · exact Or.inr ⟨line, Or.inr hl, hk⟩
    · rintro (h | ⟨line, (rfl | hl), hk⟩)
      · exact Or.inl (Or.inl h)
      · exact Or.inl (Or.inr hk)
      · exact Or.inr ⟨line, hl, hk⟩

/-- Membership in the keys read from one file, relative to a prior set. -/
theorem read_existing_file_mem (kn : List (List Char)) (f : Option (List (List Char)))
    (a : List Char) :
    a ∈ read_existing_file kn f ↔ a ∈ kn ∨ a ∈ fileKeys f := by
  cases f with
  | none => simp [read_existing_file, fileKeys]
  | some lines => simp [read_existing_file, fileKeys, foldl_lines_mem]

/-- An invariant preserved by each step of an `Option`-valued fold is
preserved by the whole fold. -/
theorem foldlM_option_inv {α β : Type} (f : β → α → Option β) (P : β → Prop)
    (hf : ∀ st a st', f st a = some st' → P st → P st') :
    ∀ (l : List α) (st st' : β), List.foldlM f st l = some st' → P st → P st' := by
  intro l
  induction l with
  | nil =>
    intro st st' h hP
    simp only [List.foldlM_nil, pure] at h
    cases h
    exact hP
  | cons a t ih =>
    intro st st' h hP
    rw [List.foldlM_cons] at h
    rcases Option.bind_eq_some.mp h with ⟨st₁, h₁, h₂⟩
    exact ih st₁ st' h₂ (hf st a st₁ h₁ hP)

/-- The invariant of the merge writer: appended keys are pairwise distinct,
none of them is globally known, and each of them is in the fetched set. -/
def mergeInv (known : List (List Char)) (st : MergeState) : Prop :=
  (st.appends.map Prod.fst).Nodup ∧
    ∀ p ∈ st.appends, p.1 ∉ known ∧ p.1 ∈ st.fetched

/-- One merge step preserves the merge invariant. -/
theorem mergeItem_inv (known : List (List Char)) (st : MergeState) (item : List Char)
    (st' : MergeState) (h : mergeItem known st item = some st') :
    mergeInv known st → mergeInv known st' := by
  rintro ⟨hnd, hmem⟩
  unfold mergeItem at h
  cases hk : bibtex_item_key item with
  | none => rw [hk] at h; cases h
  | some key =>
    rw [hk] at h
    dsimp only at h
    by_cases hin : key ∈ st.fetched ∨ key ∈ known
    · rw [if_pos hin] at h
      cases h
      exact ⟨hnd, hmem⟩
    · rw [if_neg hin] at h
      cases h
      push_neg at hin
      constructor
      · simp only [List.map_append, List.map_cons, List.map_nil]
        rw [List.nodup_append]
        refine ⟨hnd, List.nodup_singleton _, ?_⟩
        intro a ha hb
        simp only [List.mem_singleton] at hb
        subst hb
        rcases List.mem_map.mp ha with ⟨p, hp, hpa⟩
        exact hin.1 (hpa ▸ (hmem p hp).2)
      · intro p hp
        rcases List.mem_append.mp hp with h1 | h1
        · exact ⟨(hmem p h1).1, List.mem_append.mpr (Or.inl (hmem p h1).2)⟩
        · simp only [List.mem_singleton] at h1
          subst h1
          exact ⟨hin.2, List.mem_append.mpr (Or.inr (List.mem_singleton.mpr rfl))⟩

/-- Merging one payload preserves the merge invariant. -/
theorem mergePayload_inv (known : List (List Char)) (st st' : MergeState)
    (payload : List Char) (h : mergePayload known st payload = some st') :
    mergeInv known st → mergeInv known st' :=
  foldlM_option_inv (mergeItem known) (mergeInv known)
    (fun st a st' h => mergeItem_inv known st a st' h) (bibtex_items payload) st st' h

/-- The initial merge state satisfies the invariant. -/
theorem mergeInit_inv (known : List (List Char)) : mergeInv known mergeInit := by
  constructor
  · simp [mergeInit]
  · intro p hp
    simp [mergeInit] at hp

/-- A whole run of merges satisfies the invariant. -/
theorem mergeRun_inv (known : List (List Char)) (payloads : List (List Char))
    (st' : MergeState) (h : mergeRun known payloads = some st') : mergeInv known st' :=
  foldlM_option_inv (mergePayload known) (mergeInv known)
    (fun st a st' h => mergePayload_inv known st st' a h) payloads mergeInit st' h
    (mergeInit_inv known)

/-- The merge loop of a provider run satisfies the invariant. -/
theorem providerRun_inv (fe : Bool) (known cited : List (List Char))
    (mkUrl fetch : List Char → List Char) (st' : MergeState)
    (h : (providerRun fe known cited mkUrl fetch).merge = some st') :
    mergeInv known st' := by
  unfold providerRun at h
  exact foldlM_option_inv (fun st k => mergePayload known st (fetch (mkUrl k)))
    (mergeInv known)
    (fun st a st' h => mergePayload_inv known st st' (fetch (mkUrl a)) h)
    (check_missing_keys fe cited).2 mergeInit st' h (mergeInit_inv known)

/-- Case analysis of one merge step: the key parses, and the state either
logs a skip (key already fetched or known) or appends the record. -/
theorem mergeItem_cases (known : List (List Char)) (st : MergeState) (item : List Char)
    (st' : MergeState) (h : mergeItem known st item = some st') :
    ∃ key, bibtex_item_key item = some key ∧
      (((key ∈ st.fetched ∨ key ∈ known) ∧
          st' = { st with skipped := st.skipped ++ [key] }) ∨
        (¬(key ∈ st.fetched ∨ key ∈ known) ∧
          st' = ⟨st.fetched ++ [key], st.out ++ item ++ ['\n', '\n'],
                 st.appends ++ [(key, item)], st.skipped⟩)) := by
  unfold mergeItem at h
  cases hk : bibtex_item_key item with
  | none => rw [hk] at h; cases h
  | some key =>
    rw [hk] at h
    dsimp only at h
    refine ⟨key, rfl, ?_⟩
    by_cases hin : key ∈ st.fetched ∨ key ∈ known
    · rw [if_pos hin] at h
      cases h
      exact Or.inl ⟨hin, rfl⟩
    · rw [if_neg hin] at h
      cases h
      exact Or.inr ⟨hin, rfl⟩

/-- Over a fold of merge steps, the append list only grows, and every new
entry pairs a parsed key with a record from the processed item list. -/
theorem mergeFold_appends (known : List (List Char)) :
    ∀ (items : List (List Char)) (st st' : MergeState),
      items.foldlM (mergeItem known) st = some st' →
      ∃ l, st'.appends = st.appends ++ l ∧
        ∀ p ∈ l, p.2 ∈ items ∧ bibtex_item_key p.2 = some p.1 := by
  intro items
  induction items with
  | nil =>
    intro st st' h
    simp only [List.foldlM_nil, pure] at h
    cases h
    exact ⟨[], by simp, by simp⟩
  | cons a t ih =>
    intro st st' h
    rw [List.foldlM_cons] at h
    rcases Option.bind_eq_some.mp h with ⟨st₁, h₁, h₂⟩
    rcases ih st₁ st' h₂ with ⟨l, hl, hmem⟩
    rcases mergeItem_cases known st a st₁ h₁ with ⟨key, hkey, hc | hc⟩
    · refine ⟨l, ?_, ?_⟩
      · rw [hl, hc.2]
      · intro p hp
        exact ⟨List.mem_cons_of_mem a (hmem p hp).1, (hmem p hp).2⟩
    · refine ⟨(key, a) :: l, ?_, ?_⟩
      · rw [hl, hc.2]
        simp
      · intro p hp
        rcases List.mem_cons.mp hp with rfl | hp'
        · exact ⟨List.mem_cons_self a t, hkey⟩
        · exact ⟨List.mem_cons_of_mem a (hmem p hp').1, (hmem p hp').2⟩

/-- Over a fold of merge steps, the skip log only grows, and every new entry
is the parsed key of a record from the processed item list. -/
theorem mergeFold_skipped (known : List (List Char)) :
    ∀ (items : List (List Char)) (st st' : MergeState),
      items.foldlM (mergeItem known) st = some st' →
      ∃ l, st'.skipped = st.skipped ++ l ∧
        ∀ k ∈ l, ∃ it ∈ items, bibtex_item_key it = some k := by
  intro items
  induction items with
  | nil =>
    intro st st' h
    simp only [List.foldlM_nil, pure] at h
    cases h
    exact ⟨[], by simp, by simp⟩
  | cons a t ih =>
    intro st st' h
    rw [List.foldlM_cons] at h
    rcases Option.bind_eq_some.mp h with ⟨st₁, h₁, h₂⟩
    rcases ih st₁ st' h₂ with ⟨l, hl, hmem⟩
    rcases mergeItem_cases known st a st₁ h₁ with ⟨key, hkey, hc | hc⟩
    · refine ⟨key :: l, ?_, ?_⟩
      · rw [hl, hc.2]
        simp
      · intro k hk
        rcases List.mem_cons.mp hk with rfl | hk'
        · exact ⟨a, List.mem_cons_self a t, hkey⟩
        · rcases hmem k hk' with ⟨it, hit, hik⟩
          exact ⟨it, List.mem_cons_of_mem a hit, hik⟩
    · refine ⟨l, ?_, ?_⟩
      · rw [hl, hc.2]
      · intro k hk
        rcases hmem k hk with ⟨it, hit, hik⟩
        exact ⟨it, List.mem_cons_of_mem a hit, hik⟩

/-- The run-local fetched set only grows along a fold of merge steps. -/
theorem mergeFold_fetched_mono (known : List (List Char)) :
    ∀ (items : List (List Char)) (st st' : MergeState),
      items.foldlM (mergeItem known) st = some st' →
      ∀ k ∈ st.fetched, k ∈ st'.fetched := by
  intro items
  induction items with
  | nil =>
    intro st st' h
    simp only [List.foldlM_nil, pure] at h
    cases h
    exact fun k hk => hk
  | cons a t ih =>
    intro st st' h
    rw [List.foldlM_cons] at h
    rcases Option.bind_eq_some.mp h with ⟨st₁, h₁, h₂⟩
    intro k hk
    rcases mergeItem_cases known st a st₁ h₁ with ⟨key, _, hc | hc⟩
    · exact ih st₁ st' h₂ k (by rw [hc.2]; exact hk)
    · exact ih st₁ st' h₂ k (by rw [hc.2]; exact List.mem_append.mpr (Or.inl hk))

/-- After a successful fold of merge steps, the key of every processed record
parses and ends up fetched or globally known. -/
theorem mergeFold_keys_covered (known : List (List Char)) :
    ∀ (items : List (List Char)) (st st' : MergeState),
      items.foldlM (mergeItem known) st = some st' →
      ∀ it ∈ items, ∃ k, bibtex_item_key it = some k ∧
        (k ∈ st'.fetched ∨ k ∈ known) := by
  intro items
  induction items with
  | nil =>
    intro st st' _ it hit
    cases hit
  | cons a t ih =>
    intro st st' h it hit
    rw [List.foldlM_cons] at h
    rcases Option.bind_eq_some.mp h with ⟨st₁, h₁, h₂⟩
    rcases List.mem_cons.mp hit with rfl | hit'
    · rcases mergeItem_cases known st it st₁ h₁ with ⟨key, hkey, hc | hc⟩
      · refine ⟨key, hkey, ?_⟩
        rcases hc.1 with hf | hk
        · exact Or.inl (mergeFold_fetched_mono known t st₁ st' h₂ key
            (by rw [hc.2]; exact hf))
        · exact Or.inr hk
      · refine ⟨key, hkey, Or.inl ?_⟩
        exact mergeFold_fetched_mono known t st₁ st' h₂ key
          (by rw [hc.2]; exact List.mem_append.mpr (Or.inr (List.mem_singleton.mpr rfl)))
    · exact ih st₁ st' h₂ it hit'

/-- When the key of every record of the item list is already fetched or
known, the fold only extends the skip log by those keys. -/
theorem mergeFold_all_skip (known : List (List Char)) :
    ∀ (items : List (List Char)) (st : MergeState),
      (∀ it ∈ items, ∃ k, bibtex_item_key it = some k ∧
        (k ∈ st.fetched ∨ k ∈ known)) →
      items.foldlM (mergeItem known) st =
        some { st with skipped := st.skipped ++ items.filterMap bibtex_item_key } := by
  intro items
  induction items with
  | nil =>
    intro st _
    simp [List.foldlM_nil, pure]
  | cons a t ih =>
    intro st hall
    rcases hall a (List.mem_cons_self a t) with ⟨k, hk, hin⟩
    rw [List.foldlM_cons]
    have hstep : mergeItem known st a = some { st with skipped := st.skipped ++ [k] } := by
      unfold mergeItem
      rw [hk]
      dsimp only
      rw [if_pos hin]
    rw [hstep]
    have ht := ih { st with skipped := st.skipped ++ [k] }
      (fun it hit => by
        rcases hall it (List.mem_cons_of_mem a hit) with ⟨k', hk', hin'⟩
        exact ⟨k', hk', hin'⟩)
    simp only [Option.bind_eq_bind, Option.some_bind]
    rw [ht]
    simp [List.filterMap_cons, hk, List.append_assoc]

/-- Soundness of `splitLastNlBrace`: the returned prefix is a decomposition
of the input and ends in a newline-brace pair. -/
theorem splitLastNlBrace_sound :
    ∀ (xs p r : List Char), splitLastNlBrace xs = some (p, r) →
      xs = p ++ r ∧ ∃ b, p = b ++ ['\n', '}'] := by
  have H : ∀ (n : Nat) (xs p r : List Char), xs.length ≤ n →
      splitLastNlBrace xs = some (p, r) → xs = p ++ r ∧ ∃ b, p = b ++ ['\n', '}'] := by
    intro n
    induction n with
    | zero =>
      intro xs p r hlen h
      rw [List.length_eq_zero.mp (Nat.le_zero.mp hlen)] at h
      simp [splitLastNlBrace] at h
    | succ n ih =>
      intro xs p r hlen h
      match xs with
      | [] => simp [splitLastNlBrace] at h
      | [c] => simp [splitLastNlBrace] at h
      | c₁ :: c₂ :: rest =>
        rw [splitLastNlBrace] at h
        by_cases hc : c₁ = '\n' ∧ c₂ = '}'
        · rw [if_pos hc] at h
          cases hsp : splitLastNlBrace rest with
          | none =>
            rw [hsp] at h
            cases h
            exact ⟨by rw [hc.1, hc.2]; rfl, [], rfl⟩
          | some pr =>
            obtain ⟨p', r'⟩ := pr
            rw [hsp] at h
            cases h
            have hlen' : rest.length ≤ n := by
              simp only [List.length_cons] at hlen
              omega
            rcases ih rest p' r hlen' hsp with ⟨hdec, b, hb⟩
            refine ⟨by rw [hc.1, hc.2, hdec]; rfl, '\n' :: '}' :: b, by rw [hb]; rfl⟩
        · rw [if_neg hc] at h
          cases hsp : splitLastNlBrace (c₂ :: rest) with
          | none => rw [hsp] at h; cases h
          | some pr =>
            obtain ⟨p', r'⟩ := pr
            rw [hsp] at h
            cases h
            have hlen' : (c₂ :: rest).length ≤ n := by
              simp only [List.length_cons] at hlen ⊢
              omega
            rcases ih (c₂ :: rest) p' r hlen' hsp with ⟨hdec, b, hb⟩
            exact ⟨by rw [hdec]; rfl, c₁ :: b, by rw [hb]; rfl⟩
  exact fun xs p r h => H xs.length xs p r (Nat.le_refl _) h

/-- Every record produced by `tryItemAt` decomposes as a `@`, a nonempty run
of ASCII letters, an opening brace, a `@`-free body, and a final
newline-brace pair. -/
theorem tryItemAt_shape (rest item cont : List Char)
    (h : tryItemAt rest = some (item, cont)) :
    ∃ w b, item = '@' :: (w ++ '{' :: (b ++ ['\n', '}'])) ∧ w ≠ [] ∧
      (∀ c ∈ w, c.isAlpha = true) ∧ '@' ∉ b := by
  unfold tryItemAt at h
  cases htk : rest.takeWhile Char.isAlpha with
  | nil => rw [htk] at h; cases h
  | cons l ls =>
    rw [htk] at h
    cases hdw : rest.dropWhile Char.isAlpha with
    | nil => rw [hdw] at h; cases h
    | cons b0 rest3 =>
      rw [hdw] at h
      dsimp only at h
      by_cases hb0 : b0 = '{'
      · rw [if_pos hb0] at h
        cases hsp : splitLastNlBrace (rest3.takeWhile (fun d => d != '@')) with
        | none => rw [hsp] at h; cases h
        | some pr =>
          obtain ⟨body, tail⟩ := pr
          rw [hsp] at h
          cases h
          rcases splitLastNlBrace_sound _ body tail hsp with ⟨hdec, b, hb⟩
          refine ⟨l :: ls, b, by rw [hb], by simp, ?_, ?_⟩
          · intro c hc
            rw [← htk] at hc
            exact List.mem_takeWhile_imp hc
          · intro hmem
            have hcb : '@' ∈ rest3.takeWhile (fun d => d != '@') := by
              rw [hdec, hb]
              exact List.mem_append.mpr (Or.inl (List.mem_append.mpr (Or.inl hmem)))
            have := List.mem_takeWhile_imp hcb
            simp at this
      · rw [if_neg hb0] at h
        cases h

/-- Every record produced by the record-splitting scan has the clean shape. -/
theorem bibtexItemsAux_shape :
    ∀ (fuel : Nat) (s item : List Char), item ∈ bibtexItemsAux fuel s →
      ∃ w b, item = '@' :: (w ++ '{' :: (b ++ ['\n', '}'])) ∧ w ≠ [] ∧
        (∀ c ∈ w, c.isAlpha = true) ∧ '@' ∉ b := by
  intro fuel
  induction fuel with
  | zero =>
    intro s item h
    simp [bibtexItemsAux] at h
  | succ fuel ih =>
    intro s item h
    match s with
    | [] => simp [bibtexItemsAux] at h
    | c :: rest =>
      rw [bibtexItemsAux] at h
      by_cases hc : c = '@'
      · rw [if_pos hc] at h
        cases hti : tryItemAt rest with
        | none =>
          rw [hti] at h
          exact ih rest item h
        | some pr =>
          obtain ⟨it, cont⟩ := pr
          rw [hti] at h
          rcases List.mem_cons.mp h with rfl | h'
          · exact tryItemAt_shape rest item cont hti
          · exact ih cont item h'
      · rw [if_neg hc] at h
        exact ih rest item h

/-- `takeWhile` with the alphabetic predicate passes over an all-alphabetic
run and stops at the following brace. -/
theorem takeWhile_alpha_brace (w z : List Char) (hw : ∀ c ∈ w, c.isAlpha = true) :
    (w ++ '{' :: z).takeWhile Char.isAlpha = w := by
  induction w with
  | nil => rw [List.nil_append, List.takeWhile_cons, if_neg (by decide)]
  | cons c t ih =>
    rw [List.cons_append, List.takeWhile_cons, if_pos (hw c (List.mem_cons_self c t)),
      ih fun d hd => hw d (List.mem_cons_of_mem _ hd)]

/-- `dropWhile` with the alphabetic predicate drops an all-alphabetic run
and stops at the following brace. -/
theorem dropWhile_alpha_brace (w z : List Char) (hw : ∀ c ∈ w, c.isAlpha = true) :
    (w ++ '{' :: z).dropWhile Char.isAlpha = '{' :: z := by
  induction w with
  | nil => rw [List.nil_append, List.dropWhile_cons, if_neg (by decide)]
  | cons c t ih =>
    rw [List.cons_append, List.dropWhile_cons, if_pos (hw c (List.mem_cons_self c t)),
      ih fun d hd => hw d (List.mem_cons_of_mem _ hd)]

/-- A list of the clean-record shape passes the decidable `hasCleanShape`
check. -/
theorem shape_hasCleanShape (w b : List Char) (hw : w ≠ [])
    (halpha : ∀ c ∈ w, c.isAlpha = true) (hb : '@' ∉ b) :
    hasCleanShape ('@' :: (w ++ '{' :: (b ++ ['\n', '}']))) = true := by
  have hct : cleanTail (b ++ ['\n', '}']) = true := by
    have hrev : (b ++ ['\n', '}']).reverse = '}' :: '\n' :: b.reverse := by
      simp
    unfold cleanTail
    rw [hrev]
    simp [List.mem_reverse, hb]
  rw [hasCleanShape,
    takeWhile_alpha_brace w (b ++ ['\n', '}']) halpha,
    dropWhile_alpha_brace w (b ++ ['\n', '}']) halpha]
  cases w with
  | nil => exact absurd rfl hw
  | cons w0 wt =>
    dsimp only
    simp [hct]

/-- Every record produced by the record-splitting pattern passes the
decidable clean-shape check. -/
theorem bibtex_items_clean (payload item : List Char)
    (h : item ∈ bibtex_items payload) : hasCleanShape item = true := by
  rcases bibtexItemsAux_shape payload.length payload item h with
    ⟨w, b, rfl, hw, halpha, hb⟩
  exact shape_hasCleanShape w b hw halpha hb

/-- The head of a `dropWhile` result fails the predicate. -/
theorem dropWhile_head_false {p : Char → Bool} :
    ∀ (l : List Char) (c : Char) (t : List Char),
      l.dropWhile p = c :: t → p c = false := by
  intro l
  induction l with
  | nil =>
    intro c t h
    simp [List.dropWhile] at h
  | cons a r ih =>
    intro c t h
    rw [List.dropWhile_cons] at h
    by_cases ha : p a = true
    · rw [if_pos ha] at h
      exact ih c t h
    · rw [if_neg ha] at h
      cases h
      cases hpa : p a with
      | true => exact absurd hpa ha
      | false => rfl

/-- When a comma occurs in the list, `dropWhile` up to a comma lands on one. -/
theorem dropWhile_comma :
    ∀ (l : List Char), ',' ∈ l →
      ∃ t, l.dropWhile (fun d => d != ',') = ',' :: t := by
  intro l
  induction l with
  | nil =>
    intro h
    cases h
  | cons c rest ih =>
    intro h
    rw [List.dropWhile_cons]
    by_cases hc : c = ','
    · subst hc
      simp
    · have hp : (c != ',') = true := by simp [hc]
      rw [if_pos hp]
      exact ih (List.mem_cons.mp h |>.resolve_left fun h' => hc h'.symm)

/-- Soundness of `braceCommaSplit`: a match yields a decomposition with an
opening brace, the group, and the comma. -/
theorem braceCommaSplit_sound :
    ∀ (s g after : List Char), braceCommaSplit s = some (g, after) →
      ∃ v, s = v ++ '{' :: (g ++ ',' :: after) := by
  intro s
  induction s with
  | nil =>
    intro g after h
    simp [braceCommaSplit] at h
  | cons c rest ih =>
    intro g after h
    rw [braceCommaSplit] at h
    by_cases hnl : c = '\n'
    · rw [if_pos hnl] at h
      cases h
    · rw [if_neg hnl] at h
      by_cases hbr : c = '{'
      · rw [if_pos hbr] at h
        cases hsp : braceCommaSplit rest with
        | some pr =>
          obtain ⟨g', a'⟩ := pr
          rw [hsp] at h
          cases h
          rcases ih g after hsp with ⟨v, hv⟩
          subst hbr
          exact ⟨'{' :: v, by rw [hv]; rfl⟩
        | none =>
          rw [hsp] at h
          cases hdw : rest.dropWhile (fun d => d != ',') with
          | nil =>
            rw [hdw] at h
            cases h
          | cons x after' =>
            rw [hdw] at h
            cases h
            subst hbr
            have hx : x = ',' := by
              have hf := dropWhile_head_false rest x after hdw
              revert hf
              simp
            have hsplit := List.takeWhile_append_dropWhile (p := fun d => d != ',') (l := rest)
            rw [hdw, hx] at hsplit
            refine ⟨[], ?_⟩
            rw [List.nil_append]
            exact congrArg (fun l => '{' :: l) hsplit.symm
      · rw [if_neg hbr] at h
        rcases ih g after h with ⟨v, hv⟩
        exact ⟨c :: v, by rw [hv]; rfl⟩

/-- Completeness of `braceCommaSplit`: a decomposition with no newline
before the brace guarantees a match. -/
theorem braceCommaSplit_complete :
    ∀ (v w x : List Char), '\n' ∉ v →
      ∃ r, braceCommaSplit (v ++ '{' :: (w ++ ',' :: x)) = some r := by
  intro v
  induction v with
  | nil =>
    intro w x _
    rw [List.nil_append, braceCommaSplit]
    rw [if_neg (by decide), if_pos rfl]
    cases hsp : braceCommaSplit (w ++ ',' :: x) with
    | some r =>
      exact ⟨r, rfl⟩
    | none =>
      have hmem : ',' ∈ w ++ ',' :: x := List.mem_append.mpr (Or.inr (List.mem_cons_self _ _))
      rcases dropWhile_comma (w ++ ',' :: x) hmem with ⟨t, ht⟩
      rw [ht]
      exact ⟨_, rfl⟩
  | cons c v' ih =>
    intro w x hnl
    have hc : ¬c = '\n' := fun h => hnl (h ▸ List.mem_cons_self c v')
    have hnl' : '\n' ∉ v' := fun h => hnl (List.mem_cons_of_mem c h)
    rw [List.cons_append, braceCommaSplit, if_neg hc]
    by_cases hbr : c = '{'
    · rw [if_pos hbr]
      rcases ih w x hnl' with ⟨r, hr⟩
      rw [hr]
      exact ⟨r, rfl⟩
    · rw [if_neg hbr]
      exact ih w x hnl'

/-- Soundness of the line scan: a nonempty key list forces a `@`, a later
opening brace, and a later comma on the line. -/
theorem lineBibKeysAux_sound :
    ∀ (fuel : Nat) (s : List Char), lineBibKeysAux fuel s ≠ [] →
      ∃ u v w x, s = u ++ '@' :: (v ++ '{' :: (w ++ ',' :: x)) := by
  intro fuel
  induction fuel with
  | zero =>
    intro s h
    simp [lineBibKeysAux] at h
  | succ fuel ih =>
    intro s h
    match s with
    | [] => simp [lineBibKeysAux] at h
    | c :: rest =>
      rw [lineBibKeysAux] at h
      by_cases hc : c = '@'
      · rw [if_pos hc] at h
        cases hsp : braceCommaSplit rest with
        | some pr =>
          obtain ⟨g, after⟩ := pr
          rcases braceCommaSplit_sound rest g after hsp with ⟨v, hv⟩
          subst hc
          exact ⟨[], v, g, after, by rw [hv]; rfl⟩
        | none =>
          rw [hsp] at h
          rcases ih rest h with ⟨u, v, w, x, hu⟩
          exact ⟨c :: u, v, w, x, by rw [hu]; rfl⟩
      · rw [if_neg hc] at h
        rcases ih rest h with ⟨u, v, w, x, hu⟩
        exact ⟨c :: u, v, w, x, by rw [hu]; rfl⟩

/-- Completeness of the line scan on a newline-free line: the decomposition
guarantees at least one extracted key. -/
theorem lineBibKeysAux_complete :
    ∀ (fuel : Nat) (s : List Char), s.length ≤ fuel → '\n' ∉ s →
      (∃ u v w x, s = u ++ '@' :: (v ++ '{' :: (w ++ ',' :: x))) →
      lineBibKeysAux fuel s ≠ [] := by
  intro fuel
  induction fuel with
  | zero =>
    intro s hlen _ hdec
    rcases hdec with ⟨u, v, w, x, hu⟩
    rw [List.length_eq_zero.mp (Nat.le_zero.mp hlen)] at hu
    exact absurd hu.symm (by simp)
  | succ fuel ih =>
    intro s hlen hnl hdec
    rcases hdec with ⟨u, v, w, x, hu⟩
    subst hu
    cases u with
    | nil =>
      rw [List.nil_append, lineBibKeysAux, if_pos rfl]
      have hnlv : '\n' ∉ v := fun h => hnl (by
        simp only [List.nil_append, List.mem_cons, List.mem_append]
        exact Or.inr (Or.inl h))
      rcases braceCommaSplit_complete v w x hnlv with ⟨r, hr⟩
      rw [hr]
      obtain ⟨g, after⟩ := r
      simp
    | cons c u' =>
      rw [List.cons_append, lineBibKeysAux]
      have hlen' : (u' ++ '@' :: (v ++ '{' :: (w ++ ',' :: x))).length ≤ fuel := by
        simp only [List.cons_append, List.length_cons] at hlen
        omega
      have hnl' : '\n' ∉ u' ++ '@' :: (v ++ '{' :: (w ++ ',' :: x)) := by
        intro h
        exact hnl (by
          rw [List.cons_append]
          exact List.mem_cons_of_mem c h)
      have htail := ih (u' ++ '@' :: (v ++ '{' :: (w ++ ',' :: x))) hlen' hnl'
        ⟨u', v, w, x, rfl⟩
      by_cases hc : c = '@'
      · rw [if_pos hc]
        cases hsp : braceCommaSplit (u' ++ '@' :: (v ++ '{' :: (w ++ ',' :: x))) with
        | some pr =>
          obtain ⟨g, after⟩ := pr
          simp
        | none => exact htail
      · rw [if_neg hc]
        exact htail

/-- `takeWhile` up to a brace passes over a brace-free list. -/
theorem takeWhile_nobrace (a : List Char) (hb : '}' ∉ a) :
    (a ++ ['}']).takeWhile (fun d => d != '}') = a := by
  induction a with
  | nil => simp [List.takeWhile]
  | cons c t ih =>
    have hc : (c != '}') = true := by
      simp only [bne_iff_ne, ne_eq]
      exact fun h => hb (h ▸ List.mem_cons_self c t)
    rw [List.cons_append, List.takeWhile_cons, if_pos hc,
      ih fun h => hb (List.mem_cons_of_mem c h)]

/-- `dropWhile` up to a brace stops exactly at the final brace. -/
theorem dropWhile_nobrace (a : List Char) (hb : '}' ∉ a) :
    (a ++ ['}']).dropWhile (fun d => d != '}') = ['}'] := by
  induction a with
  | nil => simp [List.dropWhile]
  | cons c t ih =>
    have hc : (c != '}') = true := by
      simp only [bne_iff_ne, ne_eq]
      exact fun h => hb (h ▸ List.mem_cons_self c t)
    rw [List.cons_append, List.dropWhile_cons, if_pos hc,
      ih fun h => hb (List.mem_cons_of_mem c h)]

/-- The citation-pattern tail matches a well-bracketed nonempty group. -/
theorem matchAfterName_spec (a : List Char) (ha : a ≠ []) (hb : '}' ∉ a) :
    matchAfterName ('{' :: (a ++ ['}'])) = some (a, []) := by
  unfold matchAfterName
  dsimp only
  rw [if_pos rfl]
  cases a with
  | nil => exact absurd rfl ha
  | cons a0 as =>
    rw [takeWhile_nobrace (a0 :: as) hb, dropWhile_nobrace (a0 :: as) hb]

/-- Anchored at any of the six command names followed by a well-bracketed
nonempty group, the citation pattern matches the whole invocation. -/
theorem tryTexAt_cmd (cmd : List Char) (hc : cmd ∈ texNames) (a : List Char)
    (ha : a ≠ []) (hb : '}' ∉ a) :
    tryTexAt (cmd ++ '{' :: (a ++ ['}'])) = some (a, []) := by
  have hm := matchAfterName_spec a ha hb
  have hp : ∀ rest : List Char, matchAfterName ('p' :: rest) = none := fun _ => rfl
  have ht : ∀ rest : List Char, matchAfterName ('t' :: rest) = none := fun _ => rfl
  simp only [texNames, List.mem_cons, List.not_mem_nil, or_false] at hc
  rcases hc with rfl | rfl | rfl | rfl | rfl | rfl <;>
    simp [tryTexAt, texNames, List.findSome?, List.isPrefixOf, hm, hp, ht]

/-- Scanning the empty line yields no group, whatever the fuel. -/
theorem texGroupsAux_nil (fuel : Nat) : texGroupsAux fuel [] = [] := by
  cases fuel <;> rfl

/-- A full-line match yields exactly its group. -/
theorem texGroupsAux_step (s : List Char) (g : List Char)
    (h : tryTexAt s = some (g, [])) : texGroupsAux s.length s = [g] := by
  cases s with
  | nil =>
    rw [show tryTexAt [] = none from rfl] at h
    cases h
  | cons c rest =>
    rw [List.length_cons, texGroupsAux, h]
    dsimp only
    rw [texGroupsAux_nil]

/-- A canonical citation line yields exactly its argument group. -/
theorem texCitationGroups_cmd (cmd : List Char) (hc : cmd ∈ texNames) (a : List Char)
    (ha : a ≠ []) (hb : '}' ∉ a) :
    texCitationGroups ('\\' :: (cmd ++ '{' :: (a ++ ['}']))) = [a] := by
  have htry := tryTexAt_cmd cmd hc a ha hb
  have hback : tryTexAt ('\\' :: (cmd ++ '{' :: (a ++ ['}']))) = none := rfl
  unfold texCitationGroups
  rw [List.length_cons, texGroupsAux, hback]
  exact texGroupsAux_step (cmd ++ '{' :: (a ++ ['}'])) a htry

/-- A key in the pooled known set is never appended by a provider run. -/
theorem providerRun_known_not_appended (fe : Bool) (known cited : List (List Char))
    (mkUrl fetch : List Char → List Char) (st' : MergeState)
    (h : (providerRun fe known cited mkUrl fetch).merge = some st')
    (k : List Char) (hk : k ∈ known) :
    ∀ it, (k, it) ∉ st'.appends := by
  intro it hmem
  have hinv := providerRun_inv fe known cited mkUrl fetch st' h
  exact (hinv.2 (k, it) hmem).1 hk

/-- C4: for every missing key of each provider, the fetch URL is built by
stripping the provider prefix from the key (10 chars for Cogprints, 5 for
DBLP, 10 for Microsoft, 9 for Springer) and substituting the suffix into the
fixed per-provider template. -/
theorem c4_provider_url_construction (suffix : List Char) :
    cogprints_url (cogprintsTag ++ suffix) =
      "https://web-archive.southampton.ac.uk/cogprints.org/".toList ++ suffix
        ++ ".bib.html".toList ∧
    dblp_url (dblpTag ++ suffix) =
      "https://dblp.org/rec/".toList ++ suffix ++ ".bib".toList ∧
    microsoft_url (microsoftTag ++ suffix) =
      "https://www.microsoft.com/en-us/research/publication/".toList ++ suffix
        ++ "/bibtex/".toList ∧
    springer_url (springerTag ++ suffix) =
      "https://citation-needed.springer.com/v2/references/10.1007/".toList ++ suffix ∧
    cogprintsTag.length = 10 ∧ dblpTag.length = 5 ∧ microsoftTag.length = 10 ∧
    springerTag.length = 9 := by
  refine ⟨?_, ?_, ?_, ?_, rfl, rfl, rfl, rfl⟩
  · unfold cogprints_url
    rw [show (10 : Nat) = cogprintsTag.length from rfl, List.drop_left]
  · unfold dblp_url
    rw [show (5 : Nat) = dblpTag.length from rfl, List.drop_left]
  · unfold microsoft_url
    rw [show (10 : Nat) = microsoftTag.length from rfl, List.drop_left]
  · unfold springer_url
    rw [show (9 : Nat) = springerTag.length from rfl, List.drop_left]

/-- C1: the claim says the keys fetched are the cited keys minus the known
keys, and that no fetch happens when every cited key is known.  The code
instead returns the cited-key set unchanged from `check_missing_keys` and
never subtracts the known keys: with `DBLP:xy20` both cited and known, the
run still attempts the fetch for it, although the cited-minus-known set is
empty. -/
theorem c1_fetch_attempted_for_already_known_key :
    (check_missing_keys true [dblpTag ++ "xy20".toList]).2
        = [dblpTag ++ "xy20".toList] ∧
    (open_dblp_file true [dblpTag ++ "xy20".toList] [dblpTag ++ "xy20".toList]
        (fun _ => [])).attempted = [dblpTag ++ "xy20".toList] ∧
    ([dblpTag ++ "xy20".toList].filter
        (fun k => decide (k ∉ [dblpTag ++ "xy20".toList]))) = [] := by
  refine ⟨rfl, rfl, by decide⟩

/-- C5: the claim says the status branches test emptiness of the
cited-minus-known set.  The code tests emptiness of the raw cited-key set:
when the only cited DBLP key is already known and the file exists, the set
difference is empty but the code still reports the fetching branch rather
than "up to date".  The two empty-cited branches do behave as claimed. -/
theorem c5_status_branches_ignore_known_keys :
    (check_missing_keys true [dblpTag ++ "xy20".toList]).1 = FetchReport.fetching ∧
    ([dblpTag ++ "xy20".toList].filter
        (fun k => decide (k ∉ [dblpTag ++ "xy20".toList]))) = [] ∧
    (check_missing_keys false []).1 = FetchReport.noFile ∧
    (check_missing_keys true []).1 = FetchReport.upToDate := by
  refine ⟨rfl, by decide, rfl, rfl⟩

/-- C8: a fetched payload whose record header has no comma after the key,
such as an at-sign, `misc`, a brace, `key`, a newline and a closing brace,
is split off as a record by the record pattern, but its key extraction
fails, and the merge loop raises (modelled by `none`) instead of skipping or
appending. -/
theorem c8_missing_comma_header_raises :
    bibtex_items sampleNoCommaItem = [sampleNoCommaItem] ∧
    bibtex_item_key sampleNoCommaItem = none ∧
    ∀ known st, mergePayload known st sampleNoCommaItem = none := by
  have hnone : ∀ known st, mergeItem known st sampleNoCommaItem = none := by
    intro known st
    unfold mergeItem
    rw [show bibtex_item_key sampleNoCommaItem = none from by decide]
  refine ⟨by decide, by decide, ?_⟩
  intro known st
  unfold mergePayload
  rw [show bibtex_items sampleNoCommaItem = [sampleNoCommaItem] from by decide,
    List.foldlM_cons, hnone]
  rfl

/-- C2: the merge writer appends the record text plus a blank separator line
exactly when the record's key is in neither the known set nor the run-local
fetched set, then adds the key to the fetched set; otherwise it skips and
logs.  Consequently each key is appended at most once per provider file per
run, and a known key is never appended. -/
theorem c2_merge_writer_dedup :
    (∀ (known : List (List Char)) (st : MergeState) (item key : List Char),
      bibtex_item_key item = some key →
      (¬(key ∈ st.fetched ∨ key ∈ known) →
        mergeItem known st item =
          some ⟨st.fetched ++ [key], st.out ++ item ++ ['\n', '\n'],
                st.appends ++ [(key, item)], st.skipped⟩) ∧
      ((key ∈ st.fetched ∨ key ∈ known) →
        mergeItem known st item = some { st with skipped := st.skipped ++ [key] })) ∧
    (∀ (known : List (List Char)) (payloads : List (List Char)) (st' : MergeState),
      mergeRun known payloads = some st' →
      (st'.appends.map Prod.fst).Nodup ∧ ∀ p ∈ st'.appends, p.1 ∉ known) := by
  constructor
  · intro known st item key hk
    constructor
    · intro hnin
      unfold mergeItem
      rw [hk]
      dsimp only
      rw [if_neg hnin]
    · intro hin
      unfold mergeItem
      rw [hk]
      dsimp only
      rw [if_pos hin]
  · intro known payloads st' h
    have hinv := mergeRun_inv known payloads st' h
    exact ⟨hinv.1, fun p hp => (hinv.2 p hp).1⟩

/-- Witness for C2 at a payload with a duplicated record and a known key. -/
theorem c2_merge_writer_dedup_witness :
    mergeRun [['K']] [samplePayloadTwiceA] =
      some ⟨[['A']], samplePayloadA ++ ['\n', '\n'], [(['A'], samplePayloadA)],
            [['A'], ['K']]⟩ ∧
    (([(['A'], samplePayloadA)] : List (List Char × List Char)).map Prod.fst).Nodup ∧
    ∀ p ∈ ([(['A'], samplePayloadA)] : List (List Char × List Char)),
      p.1 ∉ [['K']] :=
  ⟨by decide,
   (c2_merge_writer_dedup.2 [['K']] [samplePayloadTwiceA]
     ⟨[['A']], samplePayloadA ++ ['\n', '\n'], [(['A'], samplePayloadA)],
      [['A'], ['K']]⟩ (by decide)).1,
   fun p hp => ((c2_merge_writer_dedup.2 [['K']] [samplePayloadTwiceA]
     ⟨[['A']], samplePayloadA ++ ['\n', '\n'], [(['A'], samplePayloadA)],
      [['A'], ['K']]⟩ (by decide)).2 p hp)⟩

/-- C7: merging the same payload twice against the same known-key state
appends each record at most once in total; the second pass skips every
record, extending only the skip log. -/
theorem c7_merge_idempotent (known : List (List Char)) (payload : List Char)
    (st₁ : MergeState)
    (h : mergePayload known mergeInit payload = some st₁) :
    ∃ st₂, mergePayload known st₁ payload = some st₂ ∧
      st₂.appends = st₁.appends ∧
      st₂.skipped = st₁.skipped ++ (bibtex_items payload).filterMap bibtex_item_key ∧
      (st₂.appends.map Prod.fst).Nodup := by
  have hcov := mergeFold_keys_covered known (bibtex_items payload) mergeInit st₁ h
  have h2 := mergeFold_all_skip known (bibtex_items payload) st₁ hcov
  have hinv := mergePayload_inv known mergeInit st₁ payload h (mergeInit_inv known)
  exact ⟨_, h2, rfl, rfl, hinv.1⟩

/-- Witness for C7 at a one-record payload. -/
theorem c7_merge_idempotent_witness :
    mergePayload [] mergeInit samplePayloadA =
      some ⟨[['A']], samplePayloadA ++ ['\n', '\n'], [(['A'], samplePayloadA)], []⟩ ∧
    ∃ st₂, mergePayload []
        ⟨[['A']], samplePayloadA ++ ['\n', '\n'], [(['A'], samplePayloadA)], []⟩
        samplePayloadA = some st₂ ∧
      st₂.appends = [(['A'], samplePayloadA)] ∧
      st₂.skipped = [] ++ (bibtex_items samplePayloadA).filterMap bibtex_item_key ∧
      (st₂.appends.map Prod.fst).Nodup :=
  ⟨by decide,
   c7_merge_idempotent [] samplePayloadA
     ⟨[['A']], samplePayloadA ++ ['\n', '\n'], [(['A'], samplePayloadA)], []⟩
     (by decide)⟩

/-- C9: a record-shaped text that cannot be decomposed as an at-sign, a
header, an opening brace and an at-sign-free body ending in a newline and a
closing brace — for example one with a `@` inside its body, or one whose
closing brace is not preceded by a newline — is never produced by the
record-splitting pattern, so the merge writer neither appends it nor emits
any log line for it. -/
theorem c9_unmatched_record_never_written (r : List Char)
    (h : hasCleanShape r = false) :
    (∀ payload, r ∉ bibtex_items payload) ∧
    (∀ (known : List (List Char)) (st st' : MergeState) (payload : List Char),
      mergePayload known st payload = some st' →
      (∃ l, st'.appends = st.appends ++ l ∧
        ∀ p ∈ l, p.2 ∈ bibtex_items payload ∧ p.2 ≠ r) ∧
      (∃ l, st'.skipped = st.skipped ++ l ∧
        ∀ kk ∈ l, ∃ it ∈ bibtex_items payload, it ≠ r ∧ bibtex_item_key it = some kk)) := by
  have hnot : ∀ payload, r ∉ bibtex_items payload := by
    intro payload hmem
    rw [bibtex_items_clean payload r hmem] at h
    cases h
  refine ⟨hnot, ?_⟩
  intro known st st' payload hm
  constructor
  · rcases mergeFold_appends known (bibtex_items payload) st st' hm with ⟨l, hl, hp⟩
    exact ⟨l, hl, fun p hpl =>
      ⟨(hp p hpl).1, fun heq => hnot payload (heq ▸ (hp p hpl).1)⟩⟩
  · rcases mergeFold_skipped known (bibtex_items payload) st st' hm with ⟨l, hl, hp⟩
    refine ⟨l, hl, fun kk hkl => ?_⟩
    rcases hp kk hkl with ⟨it, hit, hik⟩
    exact ⟨it, hit, fun heq => hnot payload (heq ▸ hit), hik⟩

/-- Witness for C9 at the claim's own email example (a `@` inside a braced
field value, with a further braced field after it) and at a minimal record
with a `@` in its body. -/
theorem c9_unmatched_record_never_written_witness :
    hasCleanShape sampleEmailItem = false ∧
    sampleEmailItem ∉ bibtex_items sampleEmailItem ∧
    hasCleanShape sampleInnerAtItem = false ∧
    sampleInnerAtItem ∉ bibtex_items sampleInnerAtItem :=
  ⟨by decide,
   (c9_unmatched_record_never_written sampleEmailItem (by decide)).1 sampleEmailItem,
   by decide,
   (c9_unmatched_record_never_written sampleInnerAtItem (by decide)).1 sampleInnerAtItem⟩

/-- C10: on a newline-free line, the scanner extracts a key exactly when a
`@` is followed later in the line by `{` and then a comma, whether or not
the line is a record header; every extracted key joins the known set; and
the extracted key can be the empty string, as on the line `@article` plus a
brace and a comma. -/
theorem c10_line_scan_behavior (line : List Char) (hnl : '\n' ∉ line) :
    (lineBibKeys line ≠ [] ↔
      ∃ u v w x, line = u ++ '@' :: (v ++ '{' :: (w ++ ',' :: x))) ∧
    (∀ (known : List (List Char)) (k : List Char),
      k ∈ lineBibKeys line → k ∈ read_existing_file known (some [line])) ∧
    lineBibKeys ['@', 'a', 'r', 't', 'i', 'c', 'l', 'e', '{', ','] = [[]] ∧
    read_existing_file []
      (some [['@', 'a', 'r', 't', 'i', 'c', 'l', 'e', '{', ',']]) = [[]] := by
  refine ⟨⟨fun h => lineBibKeysAux_sound line.length line h,
           fun h => lineBibKeysAux_complete line.length line (Nat.le_refl _) hnl h⟩,
          ?_, by decide, by decide⟩
  intro known k hk
  rw [read_existing_file]
  simp only [List.foldl_cons, List.foldl_nil]
  exact (foldl_setAdd_mem (lineBibKeys line) known k).mpr (Or.inr hk)

/-- Witness for C10 at a line that is not a record header. -/
theorem c10_line_scan_behavior_witness :
    '\n' ∉ (['x', 'x', '@', 'a', 'r', 't', '{', 'k', ',', 'y'] : List Char) ∧
    ∃ u v w x, (['x', 'x', '@', 'a', 'r', 't', '{', 'k', ',', 'y'] : List Char) =
      u ++ '@' :: (v ++ '{' :: (w ++ ',' :: x)) :=
  ⟨by decide,
   (c10_line_scan_behavior ['x', 'x', '@', 'a', 'r', 't', '{', 'k', ',', 'y']
     (by decide)).1.mp (by decide)⟩

/-- C6: the known-key set is one global pool of the keys of all four local
files, and a key found in any one file is treated as known when merging for
every one of the four providers: no record under that key is ever appended
by any provider's run. -/
theorem c6_pooled_known_keys :
    (∀ c d m s (k : List Char), k ∈ read_all_existing_files c d m s ↔
      (k ∈ fileKeys c ∨ k ∈ fileKeys d ∨ k ∈ fileKeys m ∨ k ∈ fileKeys s)) ∧
    (∀ c d m s (k : List Char),
      (k ∈ fileKeys c ∨ k ∈ fileKeys d ∨ k ∈ fileKeys m ∨ k ∈ fileKeys s) →
      ∀ (fe : Bool) (cited : List (List Char)) (fetch : List Char → List Char)
        (st' : MergeState),
        ((open_cogprints_file fe (read_all_existing_files c d m s) cited fetch).merge
            = some st' → ∀ it, (k, it) ∉ st'.appends) ∧
        ((open_dblp_file fe (read_all_existing_files c d m s) cited fetch).merge
            = some st' → ∀ it, (k, it) ∉ st'.appends) ∧
        ((open_microsoft_file fe (read_all_existing_files c d m s) cited fetch).merge
            = some st' → ∀ it, (k, it) ∉ st'.appends) ∧
        ((open_springer_file fe (read_all_existing_files c d m s) cited fetch).merge
            = some st' → ∀ it, (k, it) ∉ st'.appends)) := by
  have hmem : ∀ c d m s (k : List Char), k ∈ read_all_existing_files c d m s ↔
      (k ∈ fileKeys c ∨ k ∈ fileKeys d ∨ k ∈ fileKeys m ∨ k ∈ fileKeys s) := by
    intro c d m s k
    unfold read_all_existing_files
    rw [read_existing_file_mem, read_existing_file_mem, read_existing_file_mem,
      read_existing_file_mem]
    simp only [List.not_mem_nil, false_or, or_assoc]
  refine ⟨hmem, ?_⟩
  intro c d m s k hk fe cited fetch st'
  have hk' : k ∈ read_all_existing_files c d m s := (hmem c d m s k).mpr hk
  exact
    ⟨fun h => providerRun_known_not_appended fe _ cited cogprints_url fetch st' h k hk',
     fun h => providerRun_known_not_appended fe _ cited dblp_url fetch st' h k hk',
     fun h => providerRun_known_not_appended fe _ cited microsoft_url fetch st' h k hk',
     fun h => providerRun_known_not_appended fe _ cited springer_url fetch st' h k hk'⟩

/-- Witness for C6: a key known from the DBLP file is skipped by the
Cogprints provider's merge. -/
theorem c6_pooled_known_keys_witness :
    (['K'] ∈ fileKeys (none : Option (List (List Char))) ∨
      ['K'] ∈ fileKeys (some [sampleKnownLine]) ∨
      ['K'] ∈ fileKeys (none : Option (List (List Char))) ∨
      ['K'] ∈ fileKeys (none : Option (List (List Char)))) ∧
    (open_cogprints_file true
        (read_all_existing_files none (some [sampleKnownLine]) none none)
        [['X']] (fun _ => samplePayloadK)).merge = some ⟨[], [], [], [['K']]⟩ ∧
    (['K'], samplePayloadK) ∉ (⟨[], [], [], [['K']]⟩ : MergeState).appends :=
  ⟨by decide, by decide,
   ((c6_pooled_known_keys.2 none (some [sampleKnownLine]) none none ['K'] (by decide)
       true [['X']] (fun _ => samplePayloadK) ⟨[], [], [], [['K']]⟩).1
     (by decide)) samplePayloadK⟩

/-- C3: a line holding one of the six citation commands applied to a
brace-delimited comma-separated list yields exactly the comma-separated
tokens with surrounding whitespace trimmed, and each trimmed token is
classified by testing the four literal provider tags in order, with any
token matching none of them going to the unused bucket. -/
theorem c3_citation_extraction_classification (cmd : List Char)
    (hcmd : cmd ∈ texNames) (a : List Char) (ha : a ≠ []) (hb : '}' ∉ a) :
    texCitationGroups ('\\' :: (cmd ++ '{' :: (a ++ ['}']))) = [a] ∧
    processTexLine emptyCited ('\\' :: (cmd ++ '{' :: (a ++ ['}']))) =
      (splitOnComma a).foldl addCitationKey emptyCited ∧
    (∀ (st : CitedSets) (rawKey : List Char),
      (cogprintsTag.isPrefixOf (pyStrip rawKey) = true →
        addCitationKey st rawKey =
          { st with cogprints := setAdd st.cogprints (pyStrip rawKey) }) ∧
      (cogprintsTag.isPrefixOf (pyStrip rawKey) = false →
        dblpTag.isPrefixOf (pyStrip rawKey) = true →
        addCitationKey st rawKey =
          { st with dblp := setAdd st.dblp (pyStrip rawKey) }) ∧
      (cogprintsTag.isPrefixOf (pyStrip rawKey) = false →
        dblpTag.isPrefixOf (pyStrip rawKey) = false →
        microsoftTag.isPrefixOf (pyStrip rawKey) = true →
        addCitationKey st rawKey =
          { st with microsoft := setAdd st.microsoft (pyStrip rawKey) }) ∧
      (cogprintsTag.isPrefixOf (pyStrip rawKey) = false →
        dblpTag.isPrefixOf (pyStrip rawKey) = false →
        microsoftTag.isPrefixOf (pyStrip rawKey) = false →
        springerTag.isPrefixOf (pyStrip rawKey) = true →
        addCitationKey st rawKey =
          { st with springer := setAdd st.springer (pyStrip rawKey) }) ∧
      (cogprintsTag.isPrefixOf (pyStrip rawKey) = false →
        dblpTag.isPrefixOf (pyStrip rawKey) = false →
        microsoftTag.isPrefixOf (pyStrip rawKey) = false →
        springerTag.isPrefixOf (pyStrip rawKey) = false →
        addCitationKey st rawKey =
          { st with unused := setAdd st.unused (pyStrip rawKey) })) := by
  refine ⟨texCitationGroups_cmd cmd hcmd a ha hb, ?_, ?_⟩
  · unfold processTexLine
    rw [texCitationGroups_cmd cmd hcmd a ha hb]
    rfl
  · intro st rawKey
    refine ⟨?_, ?_, ?_, ?_, ?_⟩
    · intro h1
      simp [addCitationKey, h1]
    · intro h1 h2
      simp [addCitationKey, h1, h2]
    · intro h1 h2 h3
      simp [addCitationKey, h1, h2, h3]
    · intro h1 h2 h3 h4
      simp [addCitationKey, h1, h2, h3, h4]
    · intro h1 h2 h3 h4
      simp [addCitationKey, h1, h2, h3, h4]

/-- Witness for C3 at a cite command with a DBLP key and an unknown-tag key. -/
theorem c3_citation_extraction_classification_witness :
    (['c', 'i', 't', 'e'] ∈ texNames) ∧
    ("DBLP:key1, Other:key2".toList ≠ []) ∧
    ('}' ∉ "DBLP:key1, Other:key2".toList) ∧
    texCitationGroups sampleCiteLine = ["DBLP:key1, Other:key2".toList] ∧
    processTexLine emptyCited sampleCiteLine =
      ⟨[], ["DBLP:key1".toList], [], [], ["Other:key2".toList]⟩ :=
  ⟨by decide, by decide, by decide,
   (c3_citation_extraction_classification ['c', 'i', 't', 'e'] (by decide)
     "DBLP:key1, Other:key2".toList (by decide) (by decide)).1,
   by decide⟩
